import Mathlib

/-!
# Verification of the Bluesky friend-network analyzer core

A shallow embedding of the graph-analytics core of the repository
(`analyze_graph.py` and `filter_graph.py`) together with proofs about it.

Modelling conventions:
* Account identifiers are an arbitrary linearly ordered type `V`
  (the source uses strings ordered lexicographically).
* Python float literals (`0.1`, `5000.0`, `1e9`) are modelled exactly as
  rationals; float arithmetic is modelled as exact rational arithmetic.
* Python's stable `sorted`/`list.sort` is modelled by insertion sort,
  which is stable; `reverse=True` with a key becomes a stable sort by the
  relation "key of the right argument ≤ key of the left argument".
* The iteration order of a Python `set` or `dict` is not specified, so it
  enters every definition that depends on it as an explicit list argument
  (an "order oracle") that enumerates the set exactly once.
* The sampled betweenness estimator is a library call
  (`networkx.betweenness_centrality`), not repository code; its output
  enters as a function parameter `btw : V → ℚ`.
-/

namespace FollowNet

variable {α : Type} {K : Type}

/-- Python list slicing `l[:k]` for an arbitrary integer `k`:
a nonnegative `k` keeps the first `k` items, a negative `k` keeps all but
the last `|k|` items. -/
def pySlice (l : List α) (k : ℤ) : List α :=
  if 0 ≤ k then l.take k.toNat else l.take (l.length - k.natAbs)

/-- Python `sorted(l, key=key, reverse=True)`: a stable sort placing larger
keys first and keeping the original order of equal keys. -/
def sortDescBy [LinearOrder K] (key : α → K) (l : List α) : List α :=
  List.insertionSort (fun a b => key b ≤ key a) l

/-- Python `sorted(l)` on identifiers: a stable ascending sort. -/
def sortAsc {V : Type} [LinearOrder V] (l : List V) : List V :=
  List.insertionSort (fun a b => a ≤ b) l

theorem sortDescBy_perm [LinearOrder K] (key : α → K) (l : List α) :
    (sortDescBy key l).Perm l :=
  List.perm_insertionSort _ l

theorem sortDescBy_sorted [LinearOrder K] (key : α → K) (l : List α) :
    (sortDescBy key l).Sorted (fun a b => key b ≤ key a) := by
  haveI : IsTotal α (fun a b => key b ≤ key a) :=
    ⟨fun a b => le_total (key b) (key a)⟩
  haveI : IsTrans α (fun a b => key b ≤ key a) :=
    ⟨fun _ _ _ hab hbc => le_trans hbc hab⟩
  exact List.sorted_insertionSort _ l

theorem sortAsc_perm {V : Type} [LinearOrder V] (l : List V) :
    (sortAsc l).Perm l :=
  List.perm_insertionSort _ l

theorem sortAsc_sorted {V : Type} [LinearOrder V] (l : List V) :
    (sortAsc l).Sorted (· ≤ ·) := by
  haveI : IsTotal V (fun a b => a ≤ b) := ⟨fun a b => le_total a b⟩
  haveI : IsTrans V (fun a b => a ≤ b) := ⟨fun _ _ _ => le_trans⟩
  exact List.sorted_insertionSort _ l

/-- Elements of a sorted list taken before the cut dominate those after it. -/
theorem rel_of_mem_take_of_mem_drop {r : α → α → Prop} {l : List α} {k : ℕ}
    {x y : α} (hs : l.Pairwise r) (hx : x ∈ l.take k) (hy : y ∈ l.drop k) :
    r x y := by
  have hsplit : (l.take k ++ l.drop k).Pairwise r := by
    rw [List.take_append_drop]
    exact hs
  exact (List.pairwise_append.1 hsplit).2.2 x hx y hy

section Graph

variable {V : Type} [LinearOrder V]

/-!
## Loading the crawl JSON (`analyze_graph.load_graph`)

The raw input is a mapping from account to its `following` list (other
fields of the record are not read by the core).  It is modelled as an
association list `List (V × List V)`.  `load_graph` keeps only edges whose
target is itself a key, and returns the edge list with multiplicity.
-/

/-- The node set: the keys of the crawl mapping. -/
def rawNodes (data : List (V × List V)) : Finset V :=
  (data.map Prod.fst).toFinset

/-- The edge list produced by `load_graph`: one `(u, v)` per occurrence of
`v` in `u`'s `following` list, keeping only targets that are keys.
Duplicate entries in a `following` list yield duplicate edges. -/
def rawEdges (data : List (V × List V)) : List (V × V) :=
  data.flatMap (fun p => (p.2.filter (· ∈ rawNodes data)).map (fun v => (p.1, v)))

/-- The edge set of the `networkx.DiGraph` built from the edge list:
`add_edges_from` silently deduplicates parallel edges. -/
def edgeFinset (data : List (V × List V)) : Finset (V × V) :=
  (rawEdges data).toFinset

/-- In-degree of `n` in a digraph with edge set `E`. -/
def inDeg (E : Finset (V × V)) (n : V) : ℕ :=
  (E.filter (fun e => e.2 = n)).card

/-- Out-degree of `n` in a digraph with edge set `E`. -/
def outDeg (E : Finset (V × V)) (n : V) : ℕ :=
  (E.filter (fun e => e.1 = n)).card

/-- The following set of `u`: the successors of `u` in the digraph. -/
def followSet (E : Finset (V × V)) (u : V) : Finset V :=
  (E.filter (fun e => e.1 = u)).image Prod.snd

theorem edgeFinset_fst_mem {data : List (V × List V)} {e : V × V}
    (he : e ∈ edgeFinset data) : e.1 ∈ rawNodes data := by
  rw [edgeFinset, List.mem_toFinset, rawEdges, List.mem_flatMap] at he
  obtain ⟨p, hp, hmem⟩ := he
  rw [List.mem_map] at hmem
  obtain ⟨v, _, rfl⟩ := hmem
  rw [rawNodes, List.mem_toFinset, List.mem_map]
  exact ⟨p, hp, rfl⟩

theorem edgeFinset_snd_mem {data : List (V × List V)} {e : V × V}
    (he : e ∈ edgeFinset data) : e.2 ∈ rawNodes data := by
  rw [edgeFinset, List.mem_toFinset, rawEdges, List.mem_flatMap] at he
  obtain ⟨p, hp, hmem⟩ := he
  rw [List.mem_map] at hmem
  obtain ⟨v, hv, rfl⟩ := hmem
  exact of_decide_eq_true (List.mem_filter.1 hv).2

/-!
## Jaccard similarity (`analyze_graph.jaccard`)
-/

/-- `jaccard` from the source: `0.0` when both sets are empty, otherwise
`|a ∩ b| / |a ∪ b|`, with a second guard returning `0.0` when the union is
empty. -/
def jaccard (a b : Finset V) : ℚ :=
  if a = ∅ ∧ b = ∅ then 0
  else if (a ∪ b).card = 0 then 0
  else ((a ∩ b).card : ℚ) / ((a ∪ b).card : ℚ)

end Graph

end FollowNet

namespace FollowNet

variable {V : Type} [LinearOrder V]

/-- The edge count printed in the report summary: the length of the loaded
edge list, duplicates included (`len(edges)`). -/
def reportedEdgeCount (data : List (V × List V)) : ℕ :=
  (rawEdges data).length

/-- C9: the emitted jaccard value equals `|A ∩ B| / |A ∪ B|` (in exact
rational arithmetic, where division by zero is zero), and on two empty sets
it is exactly `0` rather than undefined. -/
theorem jaccard_eq_inter_div_union (a b : Finset V) :
    jaccard a b = ((a ∩ b).card : ℚ) / ((a ∪ b).card : ℚ) ∧
    jaccard (∅ : Finset V) ∅ = 0 := by
  constructor
  · by_cases h : a = ∅ ∧ b = ∅
    · obtain ⟨ha, hb⟩ := h
      subst ha; subst hb
      simp [jaccard]
    · by_cases hu : (a ∪ b).card = 0
      · rw [Finset.card_eq_zero, Finset.union_eq_empty] at hu
        exact absurd hu h
      · simp [jaccard, h, hu]
  · simp [jaccard]

end FollowNet

namespace FollowNet

variable {V : Type} [LinearOrder V]

/-- C7 (amended): the in-degree sum and the out-degree sum both equal the
number of *distinct* edges (the `DiGraph` deduplicates parallel edges), and
this agrees with the reported summary edge count exactly when the loaded
edge list has no duplicates.  With duplicate `following` entries the
reported count exceeds both degree sums. -/
theorem degree_sums_eq_edge_card (data : List (V × List V)) :
    (∑ n ∈ rawNodes data, inDeg (edgeFinset data) n)
      = (edgeFinset data).card ∧
    (∑ n ∈ rawNodes data, outDeg (edgeFinset data) n)
      = (edgeFinset data).card ∧
    ((rawEdges data).Nodup → reportedEdgeCount data = (edgeFinset data).card) := by
  refine ⟨?_, ?_, ?_⟩
  · exact (Finset.card_eq_sum_card_fiberwise
      (fun e he => edgeFinset_snd_mem he)).symm
  · exact (Finset.card_eq_sum_card_fiberwise
      (fun e he => edgeFinset_fst_mem he)).symm
  · intro h
    rw [reportedEdgeCount, edgeFinset, List.toFinset_card_of_nodup h]

/-- C7 counterexample: with the crawl data `{0: following [1, 1], 1: []}`
the report summary counts 2 edges, while the in-degree sum over the
deduplicated graph is 1, so the claimed equality fails. -/
theorem degree_sum_ne_reported_count :
    (∑ n ∈ rawNodes [((0 : ℕ), [1, 1]), (1, [])],
        inDeg (edgeFinset [((0 : ℕ), [1, 1]), (1, [])]) n) = 1 ∧
    reportedEdgeCount [((0 : ℕ), [1, 1]), (1, [])] = 2 ∧
    (1 : ℕ) ≠ 2 := by
  decide

/-- Witness for the amended C7 on duplicate-free data. -/
theorem degree_sums_eq_edge_card_witness :
    (rawEdges [((0 : ℕ), [1]), (1, [0])]).Nodup ∧
    ((∑ n ∈ rawNodes [((0 : ℕ), [1]), (1, [0])],
        inDeg (edgeFinset [((0 : ℕ), [1]), (1, [0])]) n)
      = (edgeFinset [((0 : ℕ), [1]), (1, [0])]).card ∧
    (∑ n ∈ rawNodes [((0 : ℕ), [1]), (1, [0])],
        outDeg (edgeFinset [((0 : ℕ), [1]), (1, [0])]) n)
      = (edgeFinset [((0 : ℕ), [1]), (1, [0])]).card ∧
    reportedEdgeCount [((0 : ℕ), [1]), (1, [0])]
      = (edgeFinset [((0 : ℕ), [1]), (1, [0])]).card) :=
  ⟨by decide,
    (degree_sums_eq_edge_card _).1,
    (degree_sums_eq_edge_card _).2.1,
    (degree_sums_eq_edge_card _).2.2 (by decide)⟩

end FollowNet

namespace FollowNet

variable {V : Type} [LinearOrder V]

/-!
## Co-follow inverted index (`analyze_graph.main`, lines 70-89)

`inv` maps each target to the list of its followers, built by scanning the
node set in its iteration order; each follower list is truncated to the
per-target cap (`followers[:5000]`) before `combinations(sorted(followers), 2)`
bumps the shared counter of every unordered follower pair.  Follower lists
are duplicate-free (they come from `DiGraph` successor sets), so the count
accumulated for a pair `(a, b)` is the number of targets whose capped
follower list contains both `a` and `b`.
-/

/-- The inverted index: followers of target `t`, in node-iteration order. -/
def invIndex (E : Finset (V × V)) (nodeOrder : List V) (t : V) : List V :=
  nodeOrder.filter (fun u => t ∈ followSet E u)

/-- Follower list truncated by the per-target cap. -/
def invCapped (E : Finset (V × V)) (nodeOrder : List V) (cap : ℕ) (t : V) :
    List V :=
  (invIndex E nodeOrder t).take cap

/-- The shared count accumulated for the pair `(a, b)`: one increment per
target whose capped follower list contains both accounts. -/
def sharedCount (E : Finset (V × V)) (nodeOrder : List V) (cap : ℕ)
    (nodes : Finset V) (a b : V) : ℕ :=
  (nodes.filter (fun t =>
    a ∈ invCapped E nodeOrder cap t ∧ b ∈ invCapped E nodeOrder cap t)).card

theorem followSet_subset_rawNodes (data : List (V × List V)) (u : V) :
    followSet (edgeFinset data) u ⊆ rawNodes data := by
  intro v hv
  rw [followSet, Finset.mem_image] at hv
  obtain ⟨e, he, rfl⟩ := hv
  exact edgeFinset_snd_mem (Finset.mem_filter.1 he).1

/-- C4: when no target's follower list exceeds the per-target cap, the
shared count accumulated via the inverted index for a pair `(a, b)` equals
`|A ∩ B|` for their following sets `A` and `B`. -/
theorem sharedCount_eq_card_inter (data : List (V × List V))
    (nodeOrder : List V) (cap : ℕ) (a b : V)
    (horder : nodeOrder.toFinset = rawNodes data)
    (hcap : ∀ t ∈ rawNodes data,
      (invIndex (edgeFinset data) nodeOrder t).length ≤ cap)
    (ha : a ∈ rawNodes data) (hb : b ∈ rawNodes data) (_hab : a < b) :
    sharedCount (edgeFinset data) nodeOrder cap (rawNodes data) a b
      = ((followSet (edgeFinset data) a) ∩ (followSet (edgeFinset data) b)).card := by
  have hmem : ∀ x : V, x ∈ nodeOrder ↔ x ∈ rawNodes data := by
    intro x; rw [← horder, List.mem_toFinset]
  have hfilter : (rawNodes data).filter (fun t =>
      a ∈ invCapped (edgeFinset data) nodeOrder cap t ∧
      b ∈ invCapped (edgeFinset data) nodeOrder cap t)
      = (rawNodes data).filter (fun t =>
        t ∈ followSet (edgeFinset data) a ∩ followSet (edgeFinset data) b) := by
    apply Finset.filter_congr
    intro t ht
    rw [invCapped, List.take_of_length_le (hcap t ht), invIndex]
    constructor
    · rintro ⟨hta, htb⟩
      have h1 := (List.mem_filter.1 hta).2
      have h2 := (List.mem_filter.1 htb).2
      rw [Finset.mem_inter]
      exact ⟨of_decide_eq_true h1, of_decide_eq_true h2⟩
    · intro h
      rw [Finset.mem_inter] at h
      constructor
      · exact List.mem_filter.2 ⟨(hmem a).2 ha, decide_eq_true h.1⟩
      · exact List.mem_filter.2 ⟨(hmem b).2 hb, decide_eq_true h.2⟩
  rw [sharedCount, hfilter, Finset.filter_mem_eq_inter, Finset.inter_eq_right.2]
  intro t ht
  exact followSet_subset_rawNodes data a ((Finset.mem_inter.1 ht).1)

end FollowNet

namespace FollowNet

/-- Witness for C4: crawl with accounts 0 and 1 both following 2 and 3
gives shared count 2 for the pair (0, 1). -/
theorem sharedCount_eq_card_inter_witness :
    ([(0 : ℕ), 1, 2, 3].toFinset
        = rawNodes [((0 : ℕ), [2, 3]), (1, [2, 3]), (2, []), (3, [])] ∧
      (∀ t ∈ rawNodes [((0 : ℕ), [2, 3]), (1, [2, 3]), (2, []), (3, [])],
        (invIndex (edgeFinset [((0 : ℕ), [2, 3]), (1, [2, 3]), (2, []), (3, [])])
          [0, 1, 2, 3] t).length ≤ 5000) ∧
      (0 : ℕ) < 1) ∧
    sharedCount (edgeFinset [((0 : ℕ), [2, 3]), (1, [2, 3]), (2, []), (3, [])])
        [0, 1, 2, 3] 5000
        (rawNodes [((0 : ℕ), [2, 3]), (1, [2, 3]), (2, []), (3, [])]) 0 1
      = ((followSet (edgeFinset [((0 : ℕ), [2, 3]), (1, [2, 3]), (2, []), (3, [])]) 0)
          ∩ (followSet (edgeFinset [((0 : ℕ), [2, 3]), (1, [2, 3]), (2, []), (3, [])]) 1)).card :=
  ⟨⟨by decide, by decide, by decide⟩,
    sharedCount_eq_card_inter _ _ 5000 0 1 (by decide) (by decide)
      (by decide) (by decide) (by decide)⟩

end FollowNet

namespace FollowNet

variable {V : Type} [LinearOrder V]

/-!
## Degree ranking (`analyze_graph.main`, lines 47-52)

`sorted(in_deg.items(), key=lambda x: x[1], reverse=True)[: args.top]` —
a stable sort of the degree dictionary items by degree only, sliced to
top-K.  The item order of the dictionary is the node-set iteration order,
so ties keep that (unspecified) order.
-/

/-- The items of the degree dictionary, in node-iteration order. -/
def degItems (deg : V → ℕ) (nodeOrder : List V) : List (V × ℕ) :=
  nodeOrder.map (fun n => (n, deg n))

/-- The in-degree ranking of the report: stable-sorted by degree
descending, then sliced to top-K. -/
def topInDegree (E : Finset (V × V)) (nodeOrder : List V) (top : ℤ) :
    List (V × ℕ) :=
  pySlice (sortDescBy Prod.snd (degItems (inDeg E) nodeOrder)) top

/-- The out-degree ranking of the report. -/
def topOutDegree (E : Finset (V × V)) (nodeOrder : List V) (top : ℤ) :
    List (V × ℕ) :=
  pySlice (sortDescBy Prod.snd (degItems (outDeg E) nodeOrder)) top

/-- The ranking in the spec's words (for comparison with `topInDegree`):
sort by degree descending and break ties by identifier ascending. -/
def topInDegreeSpec (E : Finset (V × V)) (nodeOrder : List V) (top : ℤ) :
    List (V × ℕ) :=
  pySlice (List.insertionSort
    (fun a b => b.2 < a.2 ∨ (a.2 = b.2 ∧ a.1 ≤ b.1))
    (degItems (inDeg E) nodeOrder)) top

/-- C5 counterexample: two isolated accounts 0 and 1, node set enumerated
as `[1, 0]` (a legitimate Python set order).  The report ranking keeps the
tie in enumeration order `[(1,0), (0,0)]`, not in the identifier-ascending
order `[(0,0), (1,0)]` required by the claim. -/
theorem topInDegree_ne_spec :
    [(1 : ℕ), 0].Nodup ∧
    [(1 : ℕ), 0].toFinset = rawNodes [((0 : ℕ), ([] : List ℕ)), (1, [])] ∧
    topInDegree (edgeFinset [((0 : ℕ), ([] : List ℕ)), (1, [])]) [1, 0] 50
      = [(1, 0), (0, 0)] ∧
    topInDegreeSpec (edgeFinset [((0 : ℕ), ([] : List ℕ)), (1, [])]) [1, 0] 50
      = [(0, 0), (1, 0)] ∧
    topInDegree (edgeFinset [((0 : ℕ), ([] : List ℕ)), (1, [])]) [1, 0] 50
      ≠ topInDegreeSpec (edgeFinset [((0 : ℕ), ([] : List ℕ)), (1, [])]) [1, 0] 50 := by
  decide

/-- C5 (amended): the degree ranking is sorted by degree descending and is
a top-K selection — every entry kept dominates (by degree) every entry of
the item list that was dropped, and its length is `min top |nodes|` — but
ties are kept in the node-set iteration order, which is *not* specified to
be identifier-ascending. -/
theorem topInDegree_amended (E : Finset (V × V)) (nodeOrder : List V)
    (top : ℤ) (htop : 0 ≤ top) :
    (topInDegree E nodeOrder top).Sorted (fun a b => b.2 ≤ a.2) ∧
    (topInDegree E nodeOrder top).length = min top.toNat nodeOrder.length ∧
    (∀ p ∈ topInDegree E nodeOrder top, p ∈ degItems (inDeg E) nodeOrder) ∧
    (∀ p ∈ topInDegree E nodeOrder top, ∀ q ∈ degItems (inDeg E) nodeOrder,
      q ∉ topInDegree E nodeOrder top → q.2 ≤ p.2) := by
  have hdef : topInDegree E nodeOrder top
      = (sortDescBy Prod.snd (degItems (inDeg E) nodeOrder)).take top.toNat := by
    rw [topInDegree, pySlice, if_pos htop]
  have hsorted := sortDescBy_sorted (Prod.snd) (degItems (inDeg E) nodeOrder)
  have hperm := sortDescBy_perm (Prod.snd) (degItems (inDeg E) nodeOrder)
  refine ⟨?_, ?_, ?_, ?_⟩
  · rw [hdef]
    exact hsorted.sublist (List.take_sublist _ _)
  · rw [hdef, List.length_take, hperm.length_eq, degItems, List.length_map]
  · intro p hp
    rw [hdef] at hp
    exact hperm.mem_iff.1 ((List.take_sublist _ _).mem hp)
  · intro p hp q hq hqout
    rw [hdef] at hp hqout
    have hq' : q ∈ sortDescBy Prod.snd (degItems (inDeg E) nodeOrder) :=
      hperm.mem_iff.2 hq
    have hqdrop : q ∈ (sortDescBy Prod.snd (degItems (inDeg E) nodeOrder)).drop top.toNat := by
      have := (List.take_append_drop top.toNat
        (sortDescBy Prod.snd (degItems (inDeg E) nodeOrder)))
      rw [← this, List.mem_append] at hq'
      exact hq'.resolve_left hqout
    exact rel_of_mem_take_of_mem_drop
      (r := fun a b : V × ℕ => b.2 ≤ a.2) hsorted hp hqdrop

/-- Witness for the amended C5. -/
theorem topInDegree_amended_witness :
    ((0 : ℤ) ≤ 50) ∧
    ((topInDegree (edgeFinset [((0 : ℕ), ([] : List ℕ)), (1, [])]) [1, 0] 50).Sorted
        (fun a b => b.2 ≤ a.2) ∧
      (topInDegree (edgeFinset [((0 : ℕ), ([] : List ℕ)), (1, [])]) [1, 0] 50).length
        = min (50 : ℤ).toNat [(1 : ℕ), 0].length ∧
      (∀ p ∈ topInDegree (edgeFinset [((0 : ℕ), ([] : List ℕ)), (1, [])]) [1, 0] 50,
        p ∈ degItems (inDeg (edgeFinset [((0 : ℕ), ([] : List ℕ)), (1, [])])) [1, 0]) ∧
      (∀ p ∈ topInDegree (edgeFinset [((0 : ℕ), ([] : List ℕ)), (1, [])]) [1, 0] 50,
        ∀ q ∈ degItems (inDeg (edgeFinset [((0 : ℕ), ([] : List ℕ)), (1, [])])) [1, 0],
        q ∉ topInDegree (edgeFinset [((0 : ℕ), ([] : List ℕ)), (1, [])]) [1, 0] 50 →
          q.2 ≤ p.2)) :=
  ⟨by decide, topInDegree_amended _ _ 50 (by decide)⟩

end FollowNet

namespace FollowNet

variable {V : Type} [LinearOrder V]

/-!
## Co-follow scan (`analyze_graph.main`, lines 92-99)

The loop over `shared_counts.most_common()`: per candidate it first checks
the floor (`if c < args.min_shared: break`), then appends the entry, then
checks the top-K bound (`if len(cofollow) >= args.top: break`).  The
candidate list (descending shared counts) and the following-set map are
inputs here; `len` is the running length of the accumulator.
-/

/-- The scan loop body, parameterised by the accumulated result length. -/
def cofollowLoop (f : V → Finset V) (minShared top : ℤ) :
    List ((V × V) × ℕ) → ℕ → List (V × V × ℕ × ℚ)
  | [], _ => []
  | p :: rest, len =>
    if (p.2 : ℤ) < minShared then []
    else if top ≤ (len : ℤ) + 1 then
      [(p.1.1, p.1.2, p.2, jaccard (f p.1.1) (f p.1.2))]
    else (p.1.1, p.1.2, p.2, jaccard (f p.1.1) (f p.1.2)) ::
      cofollowLoop f minShared top rest (len + 1)

/-- The co-follow report section: the scan started with an empty result. -/
def cofollow (f : V → Finset V) (minShared top : ℤ)
    (cands : List ((V × V) × ℕ)) : List (V × V × ℕ × ℚ) :=
  cofollowLoop f minShared top cands 0

theorem cofollowLoop_eq (f : V → Finset V) (minShared top : ℤ)
    (cands : List ((V × V) × ℕ)) :
    ∀ len : ℕ, (len : ℤ) < top →
    cofollowLoop f minShared top cands len
      = ((cands.takeWhile (fun p => minShared ≤ (p.2 : ℤ))).take
          (top - len).toNat).map
        (fun p => (p.1.1, p.1.2, p.2, jaccard (f p.1.1) (f p.1.2))) := by
  induction cands with
  | nil => intro len _; simp [cofollowLoop]
  | cons p rest ih =>
    intro len hlen
    by_cases hfloor : (p.2 : ℤ) < minShared
    · rw [cofollowLoop, if_pos hfloor, List.takeWhile_cons,
        if_neg (by simpa using hfloor)]
      simp
    · have hge : minShared ≤ (p.2 : ℤ) := le_of_not_lt hfloor
      by_cases hstop : top ≤ (len : ℤ) + 1
      · rw [cofollowLoop, if_neg hfloor, if_pos hstop,
          List.takeWhile_cons, if_pos (decide_eq_true hge)]
        have h1 : (top - len).toNat = 1 := by omega
        rw [h1]
        simp
      · rw [cofollowLoop, if_neg hfloor, if_neg hstop,
          List.takeWhile_cons, if_pos (decide_eq_true hge)]
        have hsucc : (top - len).toNat
            = (top - ((len : ℤ) + 1)).toNat + 1 := by omega
        rw [hsucc, List.take_succ_cons, List.map_cons]
        congr 1
        have := ih (len + 1) (by omega)
        rw [this]
        norm_num

/-- C1: on a candidate list in descending shared-count order, the scan
keeps exactly the entries taken *while* the shared count meets the floor,
truncated to top-K — the floor check precedes the top-K check, so the first
candidate below the floor ends the scan even when fewer than top-K results
have been collected, and otherwise the scan stops exactly at top-K results. -/
theorem cofollow_scan_eq (f : V → Finset V) (minShared top : ℤ)
    (cands : List ((V × V) × ℕ))
    (_hsorted : cands.Pairwise (fun p q => q.2 ≤ p.2)) (htop : 1 ≤ top) :
    cofollow f minShared top cands
      = ((cands.takeWhile (fun p => minShared ≤ (p.2 : ℤ))).take
          top.toNat).map
        (fun p => (p.1.1, p.1.2, p.2, jaccard (f p.1.1) (f p.1.2))) := by
  have := cofollowLoop_eq f minShared top cands 0 (by omega)
  rw [cofollow, this]
  norm_num

/-- Witness for C1: a three-candidate descending list with floor 2 and
top-K 50. -/
theorem cofollow_scan_eq_witness :
    ([(((0 : ℕ), (1 : ℕ)), (5 : ℕ)), ((0, 2), 3), ((1, 2), 1)].Pairwise
        (fun p q => q.2 ≤ p.2) ∧ (1 : ℤ) ≤ 50) ∧
    cofollow (fun _ => (∅ : Finset ℕ)) 2 50
        [(((0 : ℕ), (1 : ℕ)), (5 : ℕ)), ((0, 2), 3), ((1, 2), 1)]
      = (([(((0 : ℕ), (1 : ℕ)), (5 : ℕ)), ((0, 2), 3),
            ((1, 2), 1)].takeWhile (fun p => (2 : ℤ) ≤ (p.2 : ℤ))).take
          (50 : ℤ).toNat).map
        (fun p => (p.1.1, p.1.2, p.2,
          jaccard ((fun _ => (∅ : Finset ℕ)) p.1.1)
            ((fun _ => (∅ : Finset ℕ)) p.1.2))) :=
  ⟨⟨by decide, by decide⟩,
    cofollow_scan_eq _ 2 50 _ (by decide) (by decide)⟩

end FollowNet

namespace FollowNet

variable {V : Type} [LinearOrder V]

/-!
## Backbone node selection (`filter_graph.main`, lines 192-216)

`keep` is the union of the four signal sets plus the root (when present in
the graph).  If it exceeds the node cap, it is trimmed by
`sorted(list(keep), key=priority, reverse=True)[:max_nodes]` — a stable
sort of the *set listing* by the priority score.  The signal sets are the
outputs of earlier `topk` steps and enter as parameters; the listing of the
keep set is the (unspecified) Python set iteration order and enters as an
explicit argument. -/

/-- The union of the four signal sets, plus the root when it is a node. -/
def keepUnion (hubs bridges recip ego : Finset V) (root : Option V)
    (nodes : Finset V) : Finset V :=
  match root with
  | some r =>
    if r ∈ nodes then insert r (hubs ∪ bridges ∪ recip ∪ ego)
    else hubs ∪ bridges ∪ recip ∪ ego
  | none => hubs ∪ bridges ∪ recip ∪ ego

/-- The trim priority score (`filter_graph.priority`):
`indeg*1.0 + outdeg*0.1 + btw*5000.0 + 50 if reciprocal + 25 if ego +
1e9 if root`, with float literals read as exact rationals. -/
def priority (E : Finset (V × V)) (btw : V → ℚ) (recip ego : Finset V)
    (root : Option V) (n : V) : ℚ :=
  (inDeg E n : ℚ) * 1 + (outDeg E n : ℚ) * (1 / 10) + btw n * 5000
    + (if n ∈ recip then 50 else 0) + (if n ∈ ego then 25 else 0)
    + (if root = some n then 1000000000 else 0)

/-- The node-cap trim: when the keep set is larger than the cap, keep the
top-cap slice of its listing stable-sorted by priority; otherwise keep it
unchanged.  `keepOrder` is the iteration order of the keep set. -/
def selectKeep (E : Finset (V × V)) (btw : V → ℚ) (recip ego : Finset V)
    (root : Option V) (maxNodes : ℤ) (keepOrder : List V) : List V :=
  if (keepOrder.length : ℤ) > maxNodes then
    pySlice (sortDescBy (priority E btw recip ego root) keepOrder) maxNodes
  else keepOrder

/-- The trim in the spec's words (for comparison with `selectKeep`):
sort descending by priority with ties broken by identifier ascending. -/
def selectKeepSpec (E : Finset (V × V)) (btw : V → ℚ) (recip ego : Finset V)
    (root : Option V) (maxNodes : ℤ) (keepOrder : List V) : List V :=
  if (keepOrder.length : ℤ) > maxNodes then
    pySlice (List.insertionSort (fun a b =>
      priority E btw recip ego root b < priority E btw recip ego root a ∨
        (priority E btw recip ego root a = priority E btw recip ego root b
          ∧ a ≤ b)) keepOrder) maxNodes
  else keepOrder

theorem priority_trivial_eq_zero (n : ℕ) :
    priority (∅ : Finset (ℕ × ℕ)) (fun _ => 0) ∅ ∅ none n = 0 := by
  simp [priority, inDeg, outDeg]

/-- C2 counterexample: hubs {0, 1}, no other signals, no root, all
priorities equal, node cap 1.  Enumerating the keep set as `[1, 0]` keeps
node 1; enumerating it as `[0, 1]` keeps node 0; the spec's
identifier-ascending tie-break keeps node 0.  So the kept set is neither
tie-broken by identifier nor independent of the set iteration order. -/
theorem selectKeep_ne_spec :
    ([(1 : ℕ), 0].Nodup ∧ [(0 : ℕ), 1].Nodup ∧
      [(1 : ℕ), 0].toFinset = keepUnion {0, 1} ∅ ∅ ∅ none {0, 1} ∧
      [(0 : ℕ), 1].toFinset = keepUnion {0, 1} ∅ ∅ ∅ none {0, 1}) ∧
    selectKeep (∅ : Finset (ℕ × ℕ)) (fun _ => 0) ∅ ∅ none 1 [1, 0] = [1] ∧
    selectKeep (∅ : Finset (ℕ × ℕ)) (fun _ => 0) ∅ ∅ none 1 [0, 1] = [0] ∧
    selectKeepSpec (∅ : Finset (ℕ × ℕ)) (fun _ => 0) ∅ ∅ none 1 [1, 0] = [0] ∧
    ([(1 : ℕ)] : List ℕ) ≠ [0] := by
  refine ⟨⟨by decide, by decide, by decide, by decide⟩, ?_, ?_, ?_, by decide⟩
  · simp [selectKeep, sortDescBy, pySlice, List.insertionSort,
      List.orderedInsert, priority_trivial_eq_zero]
  · simp [selectKeep, sortDescBy, pySlice, List.insertionSort,
      List.orderedInsert, priority_trivial_eq_zero]
  · simp [selectKeepSpec, pySlice, List.insertionSort,
      List.orderedInsert, priority_trivial_eq_zero]

end FollowNet

namespace FollowNet

variable {V : Type} [LinearOrder V]

/-- C2 (amended): when the keep set exceeds the cap, the trim keeps exactly
cap-many of its nodes, without duplicates, and every kept node's priority
score (the stated formula) is at least every dropped node's priority; but
ties are kept in the set's iteration order — identical inputs enumerated in
a different set order can keep different tied nodes, so the tie-break is
not identifier-ascending and not a function of graph and seed alone. -/
theorem selectKeep_amended (E : Finset (V × V)) (btw : V → ℚ)
    (recip ego : Finset V) (root : Option V) (maxNodes : ℤ)
    (keep : Finset V) (keepOrder : List V)
    (hnd : keepOrder.Nodup) (hset : keepOrder.toFinset = keep)
    (hcap : 0 ≤ maxNodes) (hover : (keepOrder.length : ℤ) > maxNodes) :
    (selectKeep E btw recip ego root maxNodes keepOrder).length
      = maxNodes.toNat ∧
    (selectKeep E btw recip ego root maxNodes keepOrder).Nodup ∧
    (∀ x ∈ selectKeep E btw recip ego root maxNodes keepOrder, x ∈ keep) ∧
    (∀ x ∈ selectKeep E btw recip ego root maxNodes keepOrder,
      ∀ y ∈ keep, y ∉ selectKeep E btw recip ego root maxNodes keepOrder →
        priority E btw recip ego root y ≤ priority E btw recip ego root x) := by
  set key := priority E btw recip ego root with hkey
  have hdef : selectKeep E btw recip ego root maxNodes keepOrder
      = (sortDescBy key keepOrder).take maxNodes.toNat := by
    rw [selectKeep, if_pos hover, pySlice, if_pos hcap]
  have hsorted := sortDescBy_sorted key keepOrder
  have hperm := sortDescBy_perm key keepOrder
  have hnd_s : (sortDescBy key keepOrder).Nodup := hperm.nodup_iff.2 hnd
  have hmem_keep : ∀ x, x ∈ keepOrder ↔ x ∈ keep := by
    intro x; rw [← hset, List.mem_toFinset]
  refine ⟨?_, ?_, ?_, ?_⟩
  · rw [hdef, List.length_take, hperm.length_eq]
    omega
  · rw [hdef]
    exact hnd_s.sublist (List.take_sublist _ _)
  · intro x hx
    rw [hdef] at hx
    exact (hmem_keep x).1 (hperm.mem_iff.1 ((List.take_sublist _ _).mem hx))
  · intro x hx y hy hyout
    rw [hdef] at hx hyout
    have hy' : y ∈ sortDescBy key keepOrder :=
      hperm.mem_iff.2 ((hmem_keep y).2 hy)
    have hydrop : y ∈ (sortDescBy key keepOrder).drop maxNodes.toNat := by
      have h := List.take_append_drop maxNodes.toNat (sortDescBy key keepOrder)
      rw [← h, List.mem_append] at hy'
      exact hy'.resolve_left hyout
    exact rel_of_mem_take_of_mem_drop
      (r := fun a b : V => key b ≤ key a) hsorted hx hydrop

/-- Witness for the amended C2. -/
theorem selectKeep_amended_witness :
    ([(1 : ℕ), 0].Nodup ∧ [(1 : ℕ), 0].toFinset = ({0, 1} : Finset ℕ) ∧
      (0 : ℤ) ≤ 1 ∧ (([(1 : ℕ), 0].length : ℤ) > 1)) ∧
    ((selectKeep (∅ : Finset (ℕ × ℕ)) (fun _ => 0) ∅ ∅ none 1 [1, 0]).length
        = (1 : ℤ).toNat ∧
      (selectKeep (∅ : Finset (ℕ × ℕ)) (fun _ => 0) ∅ ∅ none 1 [1, 0]).Nodup ∧
      (∀ x ∈ selectKeep (∅ : Finset (ℕ × ℕ)) (fun _ => 0) ∅ ∅ none 1 [1, 0],
        x ∈ ({0, 1} : Finset ℕ)) ∧
      (∀ x ∈ selectKeep (∅ : Finset (ℕ × ℕ)) (fun _ => 0) ∅ ∅ none 1 [1, 0],
        ∀ y ∈ ({0, 1} : Finset ℕ),
        y ∉ selectKeep (∅ : Finset (ℕ × ℕ)) (fun _ => 0) ∅ ∅ none 1 [1, 0] →
          priority (∅ : Finset (ℕ × ℕ)) (fun _ => 0) ∅ ∅ none y
            ≤ priority (∅ : Finset (ℕ × ℕ)) (fun _ => 0) ∅ ∅ none x)) :=
  ⟨⟨by decide, by decide, by decide, by decide⟩,
    selectKeep_amended _ _ _ _ none 1 {0, 1} [1, 0]
      (by decide) (by decide) (by decide) (by decide)⟩

end FollowNet

namespace FollowNet

variable {V : Type} [LinearOrder V]

/-- C3: the backbone node selection always contains the root when the root
is a node of the graph: without trimming it is added explicitly, and under
trimming its `1e9` priority bonus strictly dominates every other node's
score (given that betweenness values lie in `[0, 1]` as the data model
states and the graph has at most `10^8` edges, so that no degree term can
reach the huge constant).  With node cap 1 the kept list is exactly
`[root]`. -/
theorem selectKeep_root_kept (E : Finset (V × V)) (btw : V → ℚ)
    (hubs bridges recip ego : Finset V) (r : V) (nodes : Finset V)
    (maxNodes : ℤ) (keepOrder : List V)
    (hr : r ∈ nodes) (hnd : keepOrder.Nodup)
    (hset : keepOrder.toFinset = keepUnion hubs bridges recip ego (some r) nodes)
    (hbtw : ∀ n ∈ keepUnion hubs bridges recip ego (some r) nodes,
      0 ≤ btw n ∧ btw n ≤ 1)
    (hsize : E.card ≤ 100000000) (hcap : 1 ≤ maxNodes) :
    r ∈ selectKeep E btw recip ego (some r) maxNodes keepOrder ∧
    (maxNodes = 1 →
      selectKeep E btw recip ego (some r) maxNodes keepOrder = [r]) := by
  set key := priority E btw recip ego (some r) with hkeydef
  have hrU : r ∈ keepUnion hubs bridges recip ego (some r) nodes := by
    rw [keepUnion]
    simp [hr]
  have hrord : r ∈ keepOrder := by
    rw [← List.mem_toFinset, hset]
    exact hrU
  have hkey_r : (1000000000 : ℚ) ≤ key r := by
    rw [hkeydef, priority, if_pos rfl]
    have h1 : (0 : ℚ) ≤ (inDeg E r : ℚ) * 1 := by positivity
    have h2 : (0 : ℚ) ≤ (outDeg E r : ℚ) * (1 / 10) := by positivity
    have h3 : (0 : ℚ) ≤ btw r * 5000 := mul_nonneg (hbtw r hrU).1 (by norm_num)
    have h4 : (0 : ℚ) ≤ (if r ∈ recip then (50 : ℚ) else 0) := by
      split <;> norm_num
    have h5 : (0 : ℚ) ≤ (if r ∈ ego then (25 : ℚ) else 0) := by
      split <;> norm_num
    linarith
  have hkey_lt : ∀ x ∈ keepOrder, x ≠ r → key x < 1000000000 := by
    intro x hx hxr
    have hxU : x ∈ keepUnion hubs bridges recip ego (some r) nodes :=
      hset ▸ (List.mem_toFinset.2 hx)
    have hb := hbtw x hxU
    have hin : (inDeg E x : ℚ) ≤ 100000000 := by
      have h : inDeg E x ≤ 100000000 :=
        le_trans (Finset.card_filter_le _ _) hsize
      exact_mod_cast h
    have hout : (outDeg E x : ℚ) ≤ 100000000 := by
      have h : outDeg E x ≤ 100000000 :=
        le_trans (Finset.card_filter_le _ _) hsize
      exact_mod_cast h
    rw [hkeydef, priority, if_neg (fun h => hxr (Option.some.inj h).symm)]
    have h1 : (inDeg E x : ℚ) * 1 ≤ 100000000 * 1 :=
      mul_le_mul_of_nonneg_right hin (by norm_num)
    have h2 : (outDeg E x : ℚ) * (1 / 10) ≤ 100000000 * (1 / 10) :=
      mul_le_mul_of_nonneg_right hout (by norm_num)
    have h3 : btw x * 5000 ≤ 1 * 5000 :=
      mul_le_mul_of_nonneg_right hb.2 (by norm_num)
    have h4 : (if x ∈ recip then (50 : ℚ) else 0) ≤ 50 := by
      split <;> norm_num
    have h5 : (if x ∈ ego then (25 : ℚ) else 0) ≤ 25 := by
      split <;> norm_num
    linarith
  have hsorted := sortDescBy_sorted key keepOrder
  have hperm := sortDescBy_perm key keepOrder
  have hnds : (sortDescBy key keepOrder).Nodup := hperm.nodup_iff.2 hnd
  by_cases hif : (keepOrder.length : ℤ) > maxNodes
  · have hrs : r ∈ sortDescBy key keepOrder := hperm.mem_iff.2 hrord
    obtain ⟨l1, l2, hdec⟩ := List.append_of_mem hrs
    have hl1 : l1 = [] := by
      cases l1 with
      | nil => rfl
      | cons x xs =>
        exfalso
        have hxr : x ≠ r := by
          intro h
          subst h
          rw [hdec, List.cons_append, List.nodup_cons] at hnds
          exact hnds.1 (List.mem_append.2 (Or.inr (List.mem_cons_self _ _)))
        have hxmem : x ∈ keepOrder := by
          apply hperm.mem_iff.1
          rw [hdec]
          exact List.mem_append.2 (Or.inl (List.mem_cons_self _ _))
        have hlt := hkey_lt x hxmem hxr
        have hrel : key r ≤ key x := by
          rw [hdec, List.cons_append] at hsorted
          exact (List.pairwise_cons.1 hsorted).1 r
            (List.mem_append.2 (Or.inr (List.mem_cons_self _ _)))
        linarith
    have hseq : sortDescBy key keepOrder = r :: l2 := by
      rw [hdec, hl1, List.nil_append]
    have hdefres : selectKeep E btw recip ego (some r) maxNodes keepOrder
        = (r :: l2).take maxNodes.toNat := by
      rw [selectKeep, if_pos hif, pySlice, if_pos (by omega), ← hkeydef, hseq]
    obtain ⟨k, hk⟩ : ∃ k, maxNodes.toNat = k + 1 :=
      ⟨maxNodes.toNat - 1, by omega⟩
    constructor
    · rw [hdefres, hk, List.take_succ_cons]
      exact List.mem_cons_self _ _
    · intro h1
      subst h1
      rw [hdefres]
      simp
  · have hres : selectKeep E btw recip ego (some r) maxNodes keepOrder
        = keepOrder := by
      rw [selectKeep, if_neg hif]
    constructor
    · rw [hres]
      exact hrord
    · intro h1
      subst h1
      rw [hres]
      have hlen : keepOrder.length ≤ 1 := by omega
      match keepOrder, hrord, hlen, hnd with
      | [a], hm, _, _ =>
        have : r = a := by simpa using hm
        rw [this]

/-- Witness for C3: root 0 with hub {1}, node cap 1. -/
theorem selectKeep_root_kept_witness :
    ((0 : ℕ) ∈ ({0, 1} : Finset ℕ) ∧ [(1 : ℕ), 0].Nodup ∧
      [(1 : ℕ), 0].toFinset
        = keepUnion {1} ∅ ∅ ∅ (some 0) ({0, 1} : Finset ℕ) ∧
      (∅ : Finset (ℕ × ℕ)).card ≤ 100000000 ∧ (1 : ℤ) ≤ 1) ∧
    ((0 : ℕ) ∈ selectKeep (∅ : Finset (ℕ × ℕ)) (fun _ => 0) ∅ ∅ (some 0) 1
        [1, 0] ∧
      selectKeep (∅ : Finset (ℕ × ℕ)) (fun _ => 0) ∅ ∅ (some 0) 1 [1, 0]
        = [0]) :=
  ⟨⟨by decide, by decide, by decide, by decide, by decide⟩, by
    have h := selectKeep_root_kept (∅ : Finset (ℕ × ℕ)) (fun _ => 0)
      {1} ∅ ∅ ∅ 0 ({0, 1} : Finset ℕ) 1 [1, 0]
      (by decide) (by decide) (by decide)
      (fun n _ => ⟨le_refl 0, by norm_num⟩) (by decide) (by decide)
    exact ⟨h.1, h.2 rfl⟩⟩

end FollowNet

namespace FollowNet

variable {V : Type} [LinearOrder V]

/-!
## Induced-subgraph edge cap (`filter_graph.induced_edge_cap`)

The subgraph over the kept nodes is scored per edge
(`indeg(u) + indeg(v) + 3 if reciprocal`), the scored list is stable-sorted
by score descending and sliced to the edge cap.  The iteration order of
`sub.edges()` enters as an explicit argument. -/

/-- Edges of the induced subgraph over `keep`. -/
def subEdges (E : Finset (V × V)) (keep : Finset V) : Finset (V × V) :=
  E.filter (fun e => e.1 ∈ keep ∧ e.2 ∈ keep)

/-- Directed edges that are half of a mutual pair
(`filter_graph.get_reciprocal_edges`). -/
def recipEdges (E : Finset (V × V)) : Finset (V × V) :=
  E.filter (fun e => (e.2, e.1) ∈ E)

/-- The edge retention score inside the induced subgraph. -/
def edgeScore (E : Finset (V × V)) (keep : Finset V) (e : V × V) : ℕ :=
  inDeg (subEdges E keep) e.1 + inDeg (subEdges E keep) e.2
    + (if e ∈ recipEdges (subEdges E keep) then 3 else 0)

/-- `induced_edge_cap`: the scored induced edges, sorted by score
descending (stable in the edge iteration order) and sliced to the cap. -/
def inducedEdgeCap (E : Finset (V × V)) (keep : Finset V) (maxEdges : ℤ)
    (edgeOrder : List (V × V)) : List (V × V) :=
  pySlice (sortDescBy (edgeScore E keep) edgeOrder) maxEdges

theorem inducedEdgeCap_subset (E : Finset (V × V)) (keep : Finset V)
    (maxEdges : ℤ) (edgeOrder : List (V × V))
    (hset : edgeOrder.toFinset = subEdges E keep) :
    ∀ e ∈ inducedEdgeCap E keep maxEdges edgeOrder, e ∈ subEdges E keep := by
  intro e he
  rw [inducedEdgeCap, pySlice] at he
  have hmem : e ∈ sortDescBy (edgeScore E keep) edgeOrder := by
    split at he
    · exact (List.take_sublist _ _).mem he
    · exact (List.take_sublist _ _).mem he
  exact hset ▸ List.mem_toFinset.2
    ((sortDescBy_perm (edgeScore E keep) edgeOrder).mem_iff.1 hmem)

theorem inducedEdgeCap_nodup (E : Finset (V × V)) (keep : Finset V)
    (maxEdges : ℤ) (edgeOrder : List (V × V)) (hnd : edgeOrder.Nodup) :
    (inducedEdgeCap E keep maxEdges edgeOrder).Nodup := by
  have hs : (sortDescBy (edgeScore E keep) edgeOrder).Nodup :=
    (sortDescBy_perm (edgeScore E keep) edgeOrder).nodup_iff.2 hnd
  rw [inducedEdgeCap, pySlice]
  split
  · exact hs.sublist (List.take_sublist _ _)
  · exact hs.sublist (List.take_sublist _ _)

/-- C6: the capped edge list never exceeds the configured cap, and when
the cap is at least the induced-subgraph edge count, every induced edge is
kept. -/
theorem inducedEdgeCap_le_and_complete (E : Finset (V × V)) (keep : Finset V)
    (maxEdges : ℤ) (edgeOrder : List (V × V))
    (hnd : edgeOrder.Nodup) (hset : edgeOrder.toFinset = subEdges E keep)
    (hcap : 0 ≤ maxEdges) :
    (inducedEdgeCap E keep maxEdges edgeOrder).length ≤ maxEdges.toNat ∧
    (((subEdges E keep).card : ℤ) ≤ maxEdges →
      ∀ e ∈ subEdges E keep, e ∈ inducedEdgeCap E keep maxEdges edgeOrder) := by
  have hlen : (sortDescBy (edgeScore E keep) edgeOrder).length
      = (subEdges E keep).card := by
    rw [(sortDescBy_perm (edgeScore E keep) edgeOrder).length_eq,
      ← List.toFinset_card_of_nodup hnd, hset]
  constructor
  · rw [inducedEdgeCap, pySlice, if_pos hcap]
    exact le_trans (List.length_take_le _ _) (le_refl _)
  · intro hfull e he
    rw [inducedEdgeCap, pySlice, if_pos hcap,
      List.take_of_length_le (by omega)]
    exact (sortDescBy_perm (edgeScore E keep) edgeOrder).mem_iff.2
      (List.mem_toFinset.1 (hset ▸ he))

/-- Witness for C6: a two-edge mutual pair with cap 10. -/
theorem inducedEdgeCap_le_and_complete_witness :
    ([((0 : ℕ), (1 : ℕ)), (1, 0)].Nodup ∧
      [((0 : ℕ), (1 : ℕ)), (1, 0)].toFinset
        = subEdges {(0, 1), (1, 0)} ({0, 1} : Finset ℕ) ∧
      (0 : ℤ) ≤ 10) ∧
    ((inducedEdgeCap ({((0 : ℕ), (1 : ℕ)), (1, 0)} : Finset (ℕ × ℕ))
        ({0, 1} : Finset ℕ) 10 [(0, 1), (1, 0)]).length ≤ (10 : ℤ).toNat ∧
      (((subEdges ({((0 : ℕ), (1 : ℕ)), (1, 0)} : Finset (ℕ × ℕ))
          ({0, 1} : Finset ℕ)).card : ℤ) ≤ 10 →
        ∀ e ∈ subEdges ({((0 : ℕ), (1 : ℕ)), (1, 0)} : Finset (ℕ × ℕ))
            ({0, 1} : Finset ℕ),
          e ∈ inducedEdgeCap ({((0 : ℕ), (1 : ℕ)), (1, 0)} : Finset (ℕ × ℕ))
            ({0, 1} : Finset ℕ) 10 [(0, 1), (1, 0)])) :=
  ⟨⟨by decide, by decide, by decide⟩,
    inducedEdgeCap_le_and_complete _ _ 10 _ (by decide) (by decide) (by decide)⟩

end FollowNet

namespace FollowNet

variable {V : Type} [LinearOrder V]

/-!
## Filtered adjacency output (`filter_graph.adjacency_json_from_edges`)

The output maps every kept node to its sorted `following` list (built from
the kept edge list) and a `linked_from` annotation found by breadth-first
discovery from the root over the kept edges.  The BFS while-loop is run on
explicit fuel (ample, since each step pops one queue entry and only unseen
nodes are ever pushed); an unset `linked_from` (the empty string in the
source) is `none` here. -/

/-- The `following` adjacency lists built by appending targets in edge
order (`following[u].append(v)`). -/
def followingLists (edges : List (V × V)) (n : V) : List V :=
  (edges.filter (fun e => e.1 = n)).map Prod.snd

/-- One BFS step state: (seen set, queue, parent assignments). -/
def bfsAux (adj : V → List V) :
    ℕ → List V → Finset V → List (V × V) → List (V × V)
  | 0, _, _, linked => linked
  | _ + 1, [], _, linked => linked
  | fuel + 1, u :: q, seen, linked =>
    let st := (adj u).foldl
      (fun st v =>
        if v ∈ st.1 then st
        else (insert v st.1, st.2.1 ++ [v], st.2.2 ++ [(v, u)]))
      (seen, q, linked)
    bfsAux adj fuel st.2.1 st.1 st.2.2

/-- The `linked_from` annotation of node `n`: its BFS discovery parent from
the root over the given edges, `none` when unset. -/
def linkedFrom (nodes : Finset V) (edges : List (V × V)) (root : Option V)
    (n : V) : Option V :=
  match root with
  | some r =>
    if r ∈ nodes then
      (bfsAux (followingLists edges) (nodes.card + edges.length + 1)
        [r] {r} []).lookup n
    else none
  | none => none

/-- The emitted adjacency mapping: one record per kept node (in node
iteration order) holding its ascending-sorted `following` list and its
`linked_from` annotation. -/
def adjacencyOut (nodes : Finset V) (edges : List (V × V)) (root : Option V)
    (nodesOrder : List V) : List (V × (List V × Option V)) :=
  nodesOrder.map (fun n =>
    (n, (sortAsc (followingLists edges n), linkedFrom nodes edges root n)))

/-- C10: the backbone output adjacency is well-formed and self-contained:
its keys are exactly the kept nodes (no duplicates), every identifier in
any `following` list is itself a key, and each `following` list is sorted
ascending without duplicates. -/
theorem adjacencyOut_wellFormed (E : Finset (V × V)) (keep : Finset V)
    (maxEdges : ℤ) (edgeOrder : List (V × V)) (root : Option V)
    (nodesOrder : List V)
    (hend : edgeOrder.Nodup) (hset : edgeOrder.toFinset = subEdges E keep)
    (hnord : nodesOrder.Nodup) (hnset : nodesOrder.toFinset = keep) :
    ((adjacencyOut keep (inducedEdgeCap E keep maxEdges edgeOrder) root
        nodesOrder).map Prod.fst).Nodup ∧
    ((adjacencyOut keep (inducedEdgeCap E keep maxEdges edgeOrder) root
        nodesOrder).map Prod.fst).toFinset = keep ∧
    (∀ p ∈ adjacencyOut keep (inducedEdgeCap E keep maxEdges edgeOrder) root
        nodesOrder, ∀ v ∈ p.2.1, v ∈ keep) ∧
    (∀ p ∈ adjacencyOut keep (inducedEdgeCap E keep maxEdges edgeOrder) root
        nodesOrder, p.2.1.Sorted (· ≤ ·) ∧ p.2.1.Nodup) := by
  have hkeys : (adjacencyOut keep (inducedEdgeCap E keep maxEdges edgeOrder)
      root nodesOrder).map Prod.fst = nodesOrder := by
    rw [adjacencyOut, List.map_map]
    exact List.map_id _
  refine ⟨?_, ?_, ?_, ?_⟩
  · rw [hkeys]; exact hnord
  · rw [hkeys]; exact hnset
  · intro p hp v hv
    rw [adjacencyOut, List.mem_map] at hp
    obtain ⟨n, _, rfl⟩ := hp
    have hv' : v ∈ followingLists (inducedEdgeCap E keep maxEdges edgeOrder) n :=
      (sortAsc_perm _).mem_iff.1 hv
    rw [followingLists, List.mem_map] at hv'
    obtain ⟨e, he, rfl⟩ := hv'
    have hekept : e ∈ inducedEdgeCap E keep maxEdges edgeOrder :=
      (List.filter_sublist _).mem he
    have hesub := inducedEdgeCap_subset E keep maxEdges edgeOrder hset e hekept
    exact (Finset.mem_filter.1 hesub).2.2
  · intro p hp
    rw [adjacencyOut, List.mem_map] at hp
    obtain ⟨n, _, rfl⟩ := hp
    have hfnd : (followingLists (inducedEdgeCap E keep maxEdges edgeOrder) n).Nodup := by
      have hkn := inducedEdgeCap_nodup E keep maxEdges edgeOrder hend
      have hfiltnd : ((inducedEdgeCap E keep maxEdges edgeOrder).filter
          (fun e => e.1 = n)).Nodup :=
        hkn.sublist (List.filter_sublist _)
      apply List.Nodup.map_on _ hfiltnd
      intro x hx y hy hxy
      have hx1 : x.1 = n := of_decide_eq_true (List.mem_filter.1 hx).2
      have hy1 : y.1 = n := of_decide_eq_true (List.mem_filter.1 hy).2
      exact Prod.ext (hx1.trans hy1.symm) hxy
    exact ⟨sortAsc_sorted _, (sortAsc_perm _).nodup_iff.2 hfnd⟩

/-- Witness for C10 on a two-node mutual pair with root 0. -/
theorem adjacencyOut_wellFormed_witness :
    ([((0 : ℕ), (1 : ℕ)), (1, 0)].Nodup ∧
      [((0 : ℕ), (1 : ℕ)), (1, 0)].toFinset
        = subEdges {(0, 1), (1, 0)} ({0, 1} : Finset ℕ) ∧
      [(0 : ℕ), 1].Nodup ∧ [(0 : ℕ), 1].toFinset = ({0, 1} : Finset ℕ)) ∧
    (((adjacencyOut ({0, 1} : Finset ℕ)
        (inducedEdgeCap ({((0 : ℕ), (1 : ℕ)), (1, 0)} : Finset (ℕ × ℕ))
          ({0, 1} : Finset ℕ) 10 [(0, 1), (1, 0)]) (some 0) [0, 1]).map
        Prod.fst).Nodup ∧
      ((adjacencyOut ({0, 1} : Finset ℕ)
        (inducedEdgeCap ({((0 : ℕ), (1 : ℕ)), (1, 0)} : Finset (ℕ × ℕ))
          ({0, 1} : Finset ℕ) 10 [(0, 1), (1, 0)]) (some 0) [0, 1]).map
        Prod.fst).toFinset = ({0, 1} : Finset ℕ) ∧
      (∀ p ∈ adjacencyOut ({0, 1} : Finset ℕ)
        (inducedEdgeCap ({((0 : ℕ), (1 : ℕ)), (1, 0)} : Finset (ℕ × ℕ))
          ({0, 1} : Finset ℕ) 10 [(0, 1), (1, 0)]) (some 0) [0, 1],
        ∀ v ∈ p.2.1, v ∈ ({0, 1} : Finset ℕ)) ∧
      (∀ p ∈ adjacencyOut ({0, 1} : Finset ℕ)
        (inducedEdgeCap ({((0 : ℕ), (1 : ℕ)), (1, 0)} : Finset (ℕ × ℕ))
          ({0, 1} : Finset ℕ) 10 [(0, 1), (1, 0)]) (some 0) [0, 1],
        p.2.1.Sorted (· ≤ ·) ∧ p.2.1.Nodup)) :=
  ⟨⟨by decide, by decide, by decide, by decide⟩,
    adjacencyOut_wellFormed _ _ 10 _ (some 0) _
      (by decide) (by decide) (by decide) (by decide)⟩

end FollowNet

namespace FollowNet

variable {V : Type} [LinearOrder V]

/-!
## The analysis run (`analyze_graph.main`)

Argument parsing accepts any integer for `--min-shared`, `--top` and the
other caps; the source performs no validation step of its own — execution
goes straight from parsing to metric computation and always writes the
report.  The error channel below models the "structured error to the
caller" the spec's error taxonomy describes; the source never uses it.
The report is modelled down to the sections analysed in this development;
the sampled-betweenness and component sections are produced by library
calls and are not modelled.  The `most_common()` candidate list of the
co-follow section enters as an explicit argument. -/

/-- The number of mutual pairs reported in the summary: each unordered
mutual pair counted once (a self-loop counts once). -/
def reciprocalPairCount (E : Finset (V × V)) : ℕ :=
  (E.filter (fun e => e.1 ≤ e.2 ∧ (e.2, e.1) ∈ E)).card

/-- The analysis report (the sections modelled here). -/
structure AnalysisReport (V : Type) where
  nodeCount : ℕ
  edgeCount : ℕ
  reciprocalCount : ℕ
  topIn : List (V × ℕ)
  topOut : List (V × ℕ)
  cofollowPairs : List (V × V × ℕ × ℚ)

/-- The run: load, build the graph, compute the report.  No configuration
validation exists in the source, so the result is always `ok`. -/
def analyzeRun (data : List (V × List V)) (minShared top : ℤ)
    (nodeOrder : List V) (cands : List ((V × V) × ℕ)) :
    Except String (AnalysisReport V) :=
  Except.ok
    ⟨(rawNodes data).card,
      reportedEdgeCount data,
      reciprocalPairCount (edgeFinset data),
      topInDegree (edgeFinset data) nodeOrder top,
      topOutDegree (edgeFinset data) nodeOrder top,
      cofollow (followSet (edgeFinset data)) minShared top cands⟩

/-- C8 counterexample: with `--top -1` on the crawl `{0: [1], 1: []}` the
run is not rejected — it produces a full report, with the negative cap
silently interpreted by slice semantics (the ranking drops its last
entry). -/
theorem analyzeRun_negative_top_runs :
    analyzeRun [((0 : ℕ), [1]), (1, [])] 10 (-1) [0, 1] []
      = Except.ok ⟨2, 1, 0, [(1, 1)], [(0, 1)], []⟩ := by
  rfl

/-- C8 (amended): negative caps are not rejected at any validation stage —
there is none; the run always completes with a report, a negative top-K
flowing into Python slice semantics so that the degree ranking keeps all
but the last `|top|` entries. -/
theorem analyzeRun_accepts_negative_caps (data : List (V × List V))
    (minShared top : ℤ) (nodeOrder : List V) (cands : List ((V × V) × ℕ))
    (htop : top < 0) (hnd : nodeOrder.Nodup)
    (hset : nodeOrder.toFinset = rawNodes data) :
    ∃ r : AnalysisReport V,
      analyzeRun data minShared top nodeOrder cands = Except.ok r ∧
      r.topIn.length = (rawNodes data).card - top.natAbs := by
  refine ⟨_, rfl, ?_⟩
  show (topInDegree (edgeFinset data) nodeOrder top).length = _
  have hlen : (sortDescBy Prod.snd
      (degItems (inDeg (edgeFinset data)) nodeOrder)).length
      = (rawNodes data).card := by
    rw [(sortDescBy_perm _ _).length_eq, degItems, List.length_map,
      ← hset, List.toFinset_card_of_nodup hnd]
  rw [topInDegree, pySlice, if_neg (by omega), List.length_take, hlen]
  omega

/-- Witness for the amended C8. -/
theorem analyzeRun_accepts_negative_caps_witness :
    ((-1 : ℤ) < 0 ∧ [(0 : ℕ), 1].Nodup ∧
      [(0 : ℕ), 1].toFinset = rawNodes [((0 : ℕ), [1]), (1, [])]) ∧
    (∃ r : AnalysisReport ℕ,
      analyzeRun [((0 : ℕ), [1]), (1, [])] 10 (-1) [0, 1] []
        = Except.ok r ∧
      r.topIn.length
        = (rawNodes [((0 : ℕ), [1]), (1, [])]).card - (-1 : ℤ).natAbs) :=
  ⟨⟨by decide, by decide, by decide⟩,
    analyzeRun_accepts_negative_caps _ 10 (-1) _ []
      (by decide) (by decide) (by decide)⟩

end FollowNet
